import Mathlib

/-!
# Verification of the RAG_MVP ingestion and answering core

Shallow embedding of the chunking pipeline of src/scripts/db_ping.ts and the
retrieval/answer utilities of src/lib/rag.ts, together with proofs of the
frozen specification claims.  JavaScript strings are modelled as Lean
String values (with the character-list view List Char used by the
implementations); JavaScript numbers that carry scores are modelled as Rat.
-/

/-- The JavaScript whitespace class (the set matched by a backslash-s regex
and trimmed by String.prototype.trim), by code point. -/
def jsWs (c : Char) : Bool :=
  c.toNat == 9 || c.toNat == 10 || c.toNat == 11 || c.toNat == 12 || c.toNat == 13 ||
  c.toNat == 32 || c.toNat == 160 || c.toNat == 0x1680 ||
  (0x2000 ≤ c.toNat && c.toNat ≤ 0x200A) || c.toNat == 0x2028 || c.toNat == 0x2029 ||
  c.toNat == 0x202F || c.toNat == 0x205F || c.toNat == 0x3000 || c.toNat == 0xFEFF

/-- Characters of a list that are not JavaScript whitespace, in order. -/
def nonWsOf (l : List Char) : List Char := l.filter (fun c => !jsWs c)

/-- First replacement pass of cleanText: non-breaking spaces become plain
spaces (the regex replacing code point 160 by a space). -/
def replaceNbsp (l : List Char) : List Char :=
  l.map (fun c => if c.toNat == 160 then ' ' else c)

/-- Space or tab, the class collapsed by the second cleanText pass. -/
def isSpTab (c : Char) : Bool := c == ' ' || c == '\t'

/-- Carriage return or form feed, the class collapsed by the third pass. -/
def isCrFf (c : Char) : Bool := c.toNat == 13 || c.toNat == 12

/-- Replace every maximal run of characters satisfying p by the single
replacement character r (a global regex replace of a one-or-more class). -/
def collapseRuns (p : Char → Bool) (r : Char) : List Char → List Char
  | [] => []
  | c :: cs =>
    if p c then
      match cs with
      | d :: _ => if p d then collapseRuns p r cs else r :: collapseRuns p r cs
      | [] => [r]
    else c :: collapseRuns p r cs

/-- Output for a pending run of n newlines: runs of three or more collapse
to exactly two, shorter runs are kept. -/
def nlRun (n : Nat) : List Char := List.replicate (if 3 ≤ n then 2 else n) '\n'

/-- Worker for the fourth cleanText pass, carrying the length of the
pending newline run. -/
def collapseNl3Aux : Nat → List Char → List Char
  | n, [] => nlRun n
  | n, c :: cs =>
    if c == '\n' then collapseNl3Aux (n + 1) cs
    else nlRun n ++ c :: collapseNl3Aux 0 cs

/-- Fourth cleanText pass: three or more consecutive newlines become two. -/
def collapseNl3 (l : List Char) : List Char := collapseNl3Aux 0 l

/-- JavaScript String.prototype.trim on character lists. -/
def trimL (l : List Char) : List Char :=
  ((l.dropWhile jsWs).reverse.dropWhile jsWs).reverse

/-- cleanText of src/scripts/db_ping.ts on character lists: replace
non-breaking spaces, collapse space/tab runs, collapse CR/FF runs to a
newline, collapse triple newlines, then trim. -/
def cleanTextL (l : List Char) : List Char :=
  trimL (collapseNl3 (collapseRuns isCrFf '\n' (collapseRuns isSpTab ' ' (replaceNbsp l))))

/-- cleanText of src/scripts/db_ping.ts. -/
def cleanText (s : String) : String := ⟨cleanTextL s.data⟩

/-- The uppercase lookahead class of the sentence-boundary regex of
sentenceSplit: A to Z (code points 65 to 90) plus the Romanian capitals in
the pattern. -/
def sentUpper (c : Char) : Bool :=
  (65 ≤ c.toNat && c.toNat ≤ 90) || c == 'Î' || c == 'Â' || c == 'Ă' || c == 'Ș' || c == 'Ț'

/-- Sentence-ending punctuation of the sentenceSplit lookbehind class. -/
def sentPunct (c : Char) : Bool := c == '.' || c == '!' || c == '?'

/-- Split the normalized text at every boundary where sentence punctuation
is followed by the (single, post-normalization) space and an uppercase
letter; acc holds the current part reversed. -/
def splitSentencesAux : List Char → List Char → List (List Char)
  | acc, [] => [acc.reverse]
  | acc, c :: ' ' :: d :: rest =>
    if sentPunct c && sentUpper d then
      (acc.reverse ++ [c]) :: splitSentencesAux [] (d :: rest)
    else splitSentencesAux (c :: acc) (' ' :: d :: rest)
  | acc, c :: cs => splitSentencesAux (c :: acc) cs

/-- sentenceSplit of src/scripts/db_ping.ts on character lists: collapse
all whitespace runs to a single space, trim, return no parts for empty
text, otherwise split at sentence boundaries (a one-part split returns the
whole text, as in the source). -/
def sentenceSplitL (l : List Char) : List (List Char) :=
  let text := trimL (collapseRuns jsWs ' ' l)
  if text.isEmpty then [] else splitSentencesAux [] text

/-- sentenceSplit of src/scripts/db_ping.ts. -/
def sentenceSplit (s : String) : List String :=
  (sentenceSplitL s.data).map (fun l => ⟨l⟩)

/-- Token kind of the extractor: heading or body text. -/
inductive TokType where
  | heading
  | text
deriving DecidableEq, Repr

/-- A content token as produced by extractMainTokens. -/
structure Token where
  type : TokType
  text : String
deriving DecidableEq, Repr

/-- Chunker state: the completed chunks and the accumulation buffer. -/
abbrev ChunkState := List (List Char) × List Char

/-- The flush closure of buildChunks: clean the buffer, push it if the
cleaned text is non-empty, and reset the buffer. -/
def flushChunk (st : ChunkState) : ChunkState :=
  let c := cleanTextL st.2
  (if c.isEmpty then st.1 else st.1 ++ [c], [])

/-- The hard-split while loop of buildChunks for a sentence at least
maxSize long, consuming maxSize-sized slices; fuel bounds the number of
iterations (the source loop does not terminate when maxSize is zero, so
every statement about it assumes a positive maxSize, under which a fuel of
the sentence length is exact). -/
def hardSplitStep (minSize maxSize : Nat) (slice : List Char) (st : ChunkState) : ChunkState :=
  let st1 :=
    if maxSize < st.2.length + slice.length + 1 && minSize ≤ st.2.length then
      flushChunk st
    else st
  (st1.1, if st1.2.isEmpty then slice else st1.2 ++ ' ' :: slice)

def hardSplitAux (minSize maxSize : Nat) : Nat → List Char → ChunkState → ChunkState
  | 0, _, st => st
  | _ + 1, [], st => st
  | fuel + 1, s, st =>
    hardSplitAux minSize maxSize fuel (s.drop maxSize)
      (hardSplitStep minSize maxSize (s.take maxSize) st)

/-- Processing of one sentence s by the body-token loop of buildChunks. -/
def addSentence (minSize maxSize : Nat) (st : ChunkState) (s : List Char) : ChunkState :=
  let tryAdd := if 0 < st.2.length then st.2 ++ ' ' :: s else s
  if tryAdd.length ≤ maxSize then (st.1, tryAdd)
  else if minSize ≤ st.2.length then ((flushChunk st).1, s)
  else if maxSize ≤ s.length then hardSplitAux minSize maxSize s.length s st
  else ((if st.2.isEmpty then st else flushChunk st).1, s)

/-- Processing of one token by buildChunks: a heading flushes a buffer
with non-whitespace content and then starts the buffer with the heading
text and a newline; a body token is sentence-split and accumulated. -/
def chunkStep (minSize maxSize : Nat) (st : ChunkState) (t : Token) : ChunkState :=
  match t.type with
  | TokType.heading =>
    let st1 := if 0 < (trimL st.2).length then flushChunk st else st
    (st1.1, (if st1.2.isEmpty then [] else st1.2 ++ ['\n']) ++ t.text.data ++ ['\n'])
  | TokType.text => (sentenceSplitL t.text.data).foldl (addSentence minSize maxSize) st

/-- buildChunks of src/scripts/db_ping.ts on character lists. -/
def buildChunksL (tokens : List Token) (minSize maxSize : Nat) : List (List Char) :=
  let st := tokens.foldl (chunkStep minSize maxSize) ([], [])
  if (trimL st.2).isEmpty then st.1 else (flushChunk st).1

/-- buildChunks of src/scripts/db_ping.ts (default sizes 800 and 1000 as
at the call site in processItem). -/
def buildChunks (tokens : List Token) (minSize : Nat := 800) (maxSize : Nat := 1000) : List String :=
  (buildChunksL tokens minSize maxSize).map (fun l => ⟨l⟩)

/-- cosineScoreFromDistance of src/lib/rag.ts: similarity is one minus the
cosine distance. -/
def cosineScoreFromDistance (distance : ℚ) : ℚ := 1 - distance

/-- Decimal digits of n, most significant first, as rendered by JavaScript
template interpolation of a non-negative integer; the fuel argument is
structural and n + 1 always suffices. -/
def natReprAux : Nat → Nat → List Char
  | 0, _ => []
  | fuel + 1, n =>
    if n < 10 then [Nat.digitChar n]
    else natReprAux fuel (n / 10) ++ [Nat.digitChar (n % 10)]

/-- Decimal rendering of a natural number as a character list. -/
def natReprL (n : Nat) : List Char := natReprAux (n + 1) n

/-- Decimal rendering of a natural number as a string. -/
def natReprS (n : Nat) : String := ⟨natReprL n⟩

/-- formatCitation of src/lib/rag.ts: the template hash, celex, colon,
chunk id. -/
def formatCitation (celex : String) (chunkId : Nat) : String :=
  "#" ++ celex ++ ":" ++ natReprS chunkId

/-- A retrieved row as mapped in retrieve of src/lib/rag.ts. -/
structure RetrievedChunk where
  celex : String
  doc_id : String
  chunk_id : Nat
  content : String
  score : ℚ
deriving DecidableEq, Repr

/-- JavaScript Array.prototype.join with a separator string. -/
def joinSep (sep : String) : List String → String
  | [] => ""
  | [x] => x
  | x :: y :: xs => x ++ sep ++ joinSep sep (y :: xs)

/-- The per-chunk context block of buildContext: bracketed citation tag, a
newline, then the passage content. -/
def contextEntry (c : RetrievedChunk) : String :=
  "[" ++ formatCitation c.celex c.chunk_id ++ "]\n" ++ c.content

/-- buildContext of src/lib/rag.ts. -/
def buildContext (chunks : List RetrievedChunk) : String :=
  joinSep "\n\n" (chunks.map contextEntry)

/-- The fixed abstention message of answer in src/lib/rag.ts. -/
def ABSTAIN_TEXT : String := "Nu știu. Nu am suficiente informații din contextul recuperat."

/-- The record returned by answer in src/lib/rag.ts. -/
structure AnswerResult where
  text : String
  sources : List String
  sourceEntries : List (String × ℚ)
deriving DecidableEq, Repr

/-- The guard expression of answer: the first score when a chunk exists,
zero otherwise (the optional-chaining read with a zero fallback). -/
def topScore : List RetrievedChunk → ℚ
  | [] => 0
  | c :: _ => c.score

/-- The decision-and-result part of answer in src/lib/rag.ts, taking the
retrieved chunks and the text that the generation call would produce: on
an empty list or a top score below 0.25 the fixed abstention result with
empty citation lists is returned, otherwise the generated text with one
citation entry per retrieved chunk, in order. -/
def answerResult (chunks : List RetrievedChunk) (genText : String) : AnswerResult :=
  if chunks.isEmpty ∨ topScore chunks < 1 / 4 then
    ⟨ABSTAIN_TEXT, [], []⟩
  else
    ⟨genText, chunks.map (fun c => formatCitation c.celex c.chunk_id),
      chunks.map (fun c => (formatCitation c.celex c.chunk_id, c.score))⟩

/-- answer of src/lib/rag.ts, abstracted over the retriever (a function
from the requested k to the retrieved rows) and the generation output: the
source calls retrieve with the literal k of five. -/
def answer (retrieveFn : Nat → List RetrievedChunk) (genText : String) : AnswerResult :=
  answerResult (retrieveFn 5) genText

/-- A stored row of the documents table (the embedding column is carried
by the content it was computed from and is irrelevant to the claims). -/
structure Row where
  celex : String
  doc_id : String
  chunk_id : Nat
  content : String
deriving DecidableEq, Repr

/-- Whether a row has the given (celex, chunk_id) key, the key of the
unique index uq_docs_celex_chunk. -/
def rowKeyMatches (celex : String) (chunkId : Nat) (r : Row) : Bool :=
  r.celex == celex && r.chunk_id == chunkId

/-- One INSERT ... ON CONFLICT (celex, chunk_id) DO UPDATE statement of
upsertDocument: replace the row with the matching key, or append. -/
def upsertRow (store : List Row) (r : Row) : List Row :=
  if store.any (rowKeyMatches r.celex r.chunk_id) then
    store.map (fun x => if rowKeyMatches r.celex r.chunk_id x then r else x)
  else store ++ [r]

/-- upsertDocument of src/scripts/db_ping.ts: upsert chunk i under
(celex, i) for every chunk, in order; the source issues no DELETE. -/
def upsertDocument (celex : String) (chunks : List String) (store : List Row) : List Row :=
  chunks.enum.foldl (fun st p => upsertRow st ⟨celex, celex, p.1, p.2⟩) store

/-- Fold A to Z and the uppercase Romanian letters of the status markers
to lower case, as the case-insensitive regex flag does for them. -/
def foldLower (c : Char) : Char :=
  if 65 ≤ c.toNat && c.toNat ≤ 90 then Char.ofNat (c.toNat + 32)
  else if c == 'Î' then 'î'
  else if c == 'Â' then 'â'
  else if c == 'Ă' then 'ă'
  else if c == 'Ș' then 'ș'
  else if c == 'Ț' then 'ț'
  else c

/-- Match a literal word case-insensitively at the head of the text,
returning the rest on success. -/
def matchLits : List Char → List Char → Option (List Char)
  | [], s => some s
  | _ :: _, [] => none
  | c :: cs, d :: ds => if foldLower d == c then matchLits cs ds else none

/-- Match a marker pattern (words separated by one-or-more whitespace, the
backslash-s-plus of the source regexes) at the head of the text. -/
def matchPatAt : List (List Char) → List Char → Bool
  | [], _ => true
  | [w], s => (matchLits w s).isSome
  | w :: rest, s =>
    match matchLits w s with
    | none => false
    | some r =>
      match r with
      | [] => false
      | c :: r2 => if jsWs c then matchPatAt rest (r2.dropWhile jsWs) else false

/-- RegExp.prototype.test: the pattern matches at some position. -/
def containsPat (p : List (List Char)) (s : List Char) : Bool :=
  s.tails.any (matchPatAt p)

/-- The NO_LONGER_IN_FORCE_MARKERS regex list of src/scripts/db_ping.ts as
word sequences; the optional trailing letter of the abrogat marker is
dropped because an optional group never affects whether the regex
matches. -/
def NO_LONGER_IN_FORCE_MARKERS : List (List (List Char)) :=
  [["no", "longer", "in", "force"],
   ["ceased", "to", "be", "in", "force"],
   ["nu", "mai", "este", "în", "vigoare"],
   ["nu", "mai", "este", "in", "vigoare"],
   ["abrogare", "implicită"],
   ["abrogat"],
   ["end", "of", "validity"]].map (fun p => p.map String.data)

/-- The matched field of isNoLongerInForce of src/scripts/db_ping.ts (the
end-of-validity date extraction is not needed by any claim). -/
def isNoLongerInForce (html : String) : Bool :=
  NO_LONGER_IN_FORCE_MARKERS.any (fun p => containsPat p html.data)

/-- The per-item ingestion report of processItem (the duration fields are
wall-clock side channels and are not modelled). -/
structure ProcessReport where
  celex : String
  chunkCount : Nat
deriving DecidableEq, Repr

/-- processItem of src/scripts/db_ping.ts after a successful fetch,
abstracted over the extractor: a matched status marker returns a zero
chunk count and leaves the store untouched; otherwise the markup is
extracted, chunked with sizes 800 and 1000, and upserted unless the
no-embed dry-run flag is set. -/
def processItem (extract : String → List Token) (celex html : String)
    (noEmbed : Bool) (store : List Row) : ProcessReport × List Row :=
  if isNoLongerInForce html then (⟨celex, 0⟩, store)
  else
    let chunks := buildChunks (extract html) 800 1000
    (⟨celex, chunks.length⟩, if noEmbed then store else upsertDocument celex chunks store)

/-- The size invariant of the chunker state used for the amended bound
claim: every completed chunk and the buffer are at most maxSize long, and
a non-empty buffer contains a non-whitespace character. -/
abbrev SizeInv (maxSize : Nat) (st : ChunkState) : Prop :=
  (∀ c ∈ st.1, c.length ≤ maxSize) ∧ st.2.length ≤ maxSize ∧
    (st.2 = [] ∨ nonWsOf st.2 ≠ [])

/-- All text held by a chunker state: the completed chunks in order
followed by the accumulation buffer. -/
def stContent (st : ChunkState) : List Char := st.1.flatten ++ st.2

/-- Numeric value of a decimal digit character (used to invert the decimal
rendering when proving citation tags injective). -/
def digitVal (c : Char) : Nat := c.toNat - 48

/-- Value of a most-significant-first decimal digit list. -/
def digitsVal (l : List Char) : Nat := l.foldl (fun a c => a * 10 + digitVal c) 0

/-! ## Basic facts about the text-normalization passes -/

theorem collapseRuns_nil (p : Char → Bool) (r : Char) : collapseRuns p r [] = [] := rfl

theorem collapseRuns_singleton (p : Char → Bool) (r : Char) (c : Char) :
    collapseRuns p r [c] = if p c then [r] else [c] := rfl

theorem collapseRuns_cons_cons (p : Char → Bool) (r : Char) (c d : Char) (ds : List Char) :
    collapseRuns p r (c :: d :: ds) =
      if p c then
        (if p d then collapseRuns p r (d :: ds) else r :: collapseRuns p r (d :: ds))
      else c :: collapseRuns p r (d :: ds) := rfl

theorem length_replaceNbsp (l : List Char) : (replaceNbsp l).length = l.length := by
  simp [replaceNbsp]

theorem length_collapseRuns_le (p : Char → Bool) (r : Char) :
    ∀ l : List Char, (collapseRuns p r l).length ≤ l.length
  | [] => Nat.le_refl _
  | [c] => by
    rw [collapseRuns_singleton]
    split <;> simp
  | c :: d :: ds => by
    have ih := length_collapseRuns_le p r (d :: ds)
    rw [collapseRuns_cons_cons]
    split
    · split
      · exact Nat.le_succ_of_le ih
      · simp only [List.length_cons] at *
        omega
    · simp only [List.length_cons] at *
      omega

theorem length_nlRun (n : Nat) : (nlRun n).length = min n 2 := by
  simp only [nlRun, List.length_replicate]
  split <;> omega

theorem length_collapseNl3Aux_le (l : List Char) :
    ∀ n : Nat, (collapseNl3Aux n l).length ≤ min n 2 + l.length := by
  induction l with
  | nil =>
    intro n
    simp only [collapseNl3Aux, length_nlRun, List.length_nil]
    omega
  | cons c cs ih =>
    intro n
    cases hc : (c == '\n') with
    | true =>
      simp only [collapseNl3Aux, hc, if_true]
      have h1 := ih (n + 1)
      have h2 : min (n + 1) 2 ≤ min n 2 + 1 := by omega
      simp only [List.length_cons]
      omega
    | false =>
      simp only [collapseNl3Aux, hc, Bool.false_eq_true, if_false, List.length_append,
        length_nlRun, List.length_cons]
      have h1 := ih 0
      simp only [Nat.min_zero, Nat.zero_add] at h1
      omega

theorem length_collapseNl3_le (l : List Char) : (collapseNl3 l).length ≤ l.length := by
  have h := length_collapseNl3Aux_le l 0
  simpa [collapseNl3] using h

theorem length_dropWhile_le (p : Char → Bool) (l : List Char) :
    (l.dropWhile p).length ≤ l.length := by
  have h := List.takeWhile_append_dropWhile p l
  have h2 : (List.takeWhile p l ++ List.dropWhile p l).length = l.length := by rw [h]
  simp only [List.length_append] at h2
  omega

theorem length_trimL_le (l : List Char) : (trimL l).length ≤ l.length := by
  unfold trimL
  calc ((l.dropWhile jsWs).reverse.dropWhile jsWs).reverse.length
      = ((l.dropWhile jsWs).reverse.dropWhile jsWs).length := by simp
    _ ≤ (l.dropWhile jsWs).reverse.length := length_dropWhile_le _ _
    _ = (l.dropWhile jsWs).length := by simp
    _ ≤ l.length := length_dropWhile_le _ _

theorem length_cleanTextL_le (l : List Char) : (cleanTextL l).length ≤ l.length := by
  unfold cleanTextL
  calc (trimL (collapseNl3 (collapseRuns isCrFf '\n' (collapseRuns isSpTab ' ' (replaceNbsp l))))).length
      ≤ (collapseNl3 (collapseRuns isCrFf '\n' (collapseRuns isSpTab ' ' (replaceNbsp l)))).length :=
        length_trimL_le _
    _ ≤ (collapseRuns isCrFf '\n' (collapseRuns isSpTab ' ' (replaceNbsp l))).length :=
        length_collapseNl3_le _
    _ ≤ (collapseRuns isSpTab ' ' (replaceNbsp l)).length := length_collapseRuns_le _ _ _
    _ ≤ (replaceNbsp l).length := length_collapseRuns_le _ _ _
    _ = l.length := length_replaceNbsp _

/-! ## The normalization passes only rearrange whitespace: the sequence of
non-whitespace characters is preserved -/

theorem nonWsOf_append (a b : List Char) : nonWsOf (a ++ b) = nonWsOf a ++ nonWsOf b := by
  simp [nonWsOf]

theorem nonWsOf_cons_ws {c : Char} (h : jsWs c = true) (l : List Char) :
    nonWsOf (c :: l) = nonWsOf l := by
  simp [nonWsOf, h]

theorem nonWsOf_cons_not_ws {c : Char} (h : jsWs c = false) (l : List Char) :
    nonWsOf (c :: l) = c :: nonWsOf l := by
  simp [nonWsOf, h]

theorem nonWsOf_eq_nil_iff (l : List Char) : nonWsOf l = [] ↔ ∀ c ∈ l, jsWs c = true := by
  simp [nonWsOf]

theorem nonWsOf_replaceNbsp (l : List Char) : nonWsOf (replaceNbsp l) = nonWsOf l := by
  induction l with
  | nil => rfl
  | cons c cs ih =>
    show nonWsOf ((if c.toNat == 160 then ' ' else c) :: replaceNbsp cs) = nonWsOf (c :: cs)
    cases hc : (c.toNat == 160) with
    | true =>
      have hcw : jsWs c = true := by
        have : c.toNat = 160 := beq_iff_eq.mp hc
        simp [jsWs, this]
      rw [if_pos rfl]
      rw [nonWsOf_cons_ws (by decide), nonWsOf_cons_ws hcw, ih]
    | false =>
      rw [if_neg (by simp [hc])]
      cases hw : jsWs c with
      | true => rw [nonWsOf_cons_ws hw, nonWsOf_cons_ws hw, ih]
      | false => rw [nonWsOf_cons_not_ws hw, nonWsOf_cons_not_ws hw, ih]

theorem nonWsOf_collapseRuns (p : Char → Bool) (r : Char)
    (hp : ∀ c, p c = true → jsWs c = true) (hr : jsWs r = true) :
    ∀ l : List Char, nonWsOf (collapseRuns p r l) = nonWsOf l
  | [] => rfl
  | [c] => by
    rw [collapseRuns_singleton]
    cases hc : p c with
    | true =>
      rw [if_pos rfl, nonWsOf_cons_ws hr, nonWsOf_cons_ws (hp c hc)]
    | false => simp
  | c :: d :: ds => by
    have ih := nonWsOf_collapseRuns p r hp hr (d :: ds)
    rw [collapseRuns_cons_cons]
    cases hc : p c with
    | true =>
      rw [if_pos rfl, nonWsOf_cons_ws (hp c hc)]
      cases hd : p d with
      | true => rw [if_pos rfl, ih]
      | false => rw [if_neg (by simp), nonWsOf_cons_ws hr, ih]
    | false =>
      rw [if_neg (by simp)]
      cases hw : jsWs c with
      | true => rw [nonWsOf_cons_ws hw, nonWsOf_cons_ws hw, ih]
      | false => rw [nonWsOf_cons_not_ws hw, nonWsOf_cons_not_ws hw, ih]

theorem nonWsOf_nlRun (n : Nat) : nonWsOf (nlRun n) = [] := by
  rw [nonWsOf_eq_nil_iff]
  intro c hc
  have : c = '\n' := List.eq_of_mem_replicate hc
  subst this
  decide

theorem nonWsOf_collapseNl3Aux (l : List Char) :
    ∀ n : Nat, nonWsOf (collapseNl3Aux n l) = nonWsOf l := by
  induction l with
  | nil =>
    intro n
    show nonWsOf (nlRun n) = nonWsOf []
    rw [nonWsOf_nlRun]
    rfl
  | cons c cs ih =>
    intro n
    cases hc : (c == '\n') with
    | true =>
      have hceq : c = '\n' := by exact eq_of_beq hc
      simp only [collapseNl3Aux, hc, if_true]
      rw [ih (n + 1), hceq, nonWsOf_cons_ws (by decide)]
    | false =>
      simp only [collapseNl3Aux, hc, Bool.false_eq_true, if_false]
      rw [nonWsOf_append, nonWsOf_nlRun]
      cases hw : jsWs c with
      | true => rw [nonWsOf_cons_ws hw, nonWsOf_cons_ws hw, ih 0]; rfl
      | false => rw [nonWsOf_cons_not_ws hw, nonWsOf_cons_not_ws hw, ih 0]; rfl

theorem nonWsOf_collapseNl3 (l : List Char) : nonWsOf (collapseNl3 l) = nonWsOf l :=
  nonWsOf_collapseNl3Aux l 0

theorem nonWsOf_takeWhile_ws (l : List Char) : nonWsOf (l.takeWhile jsWs) = [] := by
  rw [nonWsOf_eq_nil_iff]
  intro c hc
  exact List.mem_takeWhile_imp hc

theorem nonWsOf_dropWhile_ws (l : List Char) : nonWsOf (l.dropWhile jsWs) = nonWsOf l := by
  conv_rhs => rw [← List.takeWhile_append_dropWhile jsWs l]
  rw [nonWsOf_append, nonWsOf_takeWhile_ws]
  rfl

theorem nonWsOf_reverse (l : List Char) : nonWsOf l.reverse = (nonWsOf l).reverse := by
  simp [nonWsOf]

theorem nonWsOf_trimL (l : List Char) : nonWsOf (trimL l) = nonWsOf l := by
  unfold trimL
  rw [nonWsOf_reverse, nonWsOf_dropWhile_ws, nonWsOf_reverse, List.reverse_reverse,
    nonWsOf_dropWhile_ws]

theorem nonWsOf_cleanTextL (l : List Char) : nonWsOf (cleanTextL l) = nonWsOf l := by
  unfold cleanTextL
  rw [nonWsOf_trimL, nonWsOf_collapseNl3,
    nonWsOf_collapseRuns isCrFf '\n' (by intro c h; simp [isCrFf, jsWs] at *; omega) (by decide),
    nonWsOf_collapseRuns isSpTab ' ' (by intro c h; simp [isSpTab, jsWs] at *; rcases h with h | h <;> simp [h]) (by decide),
    nonWsOf_replaceNbsp]

theorem trimL_eq_nil_iff (l : List Char) : trimL l = [] ↔ ∀ c ∈ l, jsWs c = true := by
  unfold trimL
  rw [List.reverse_eq_nil_iff, List.dropWhile_eq_nil_iff]
  constructor
  · intro h c hc
    have hsplit := List.takeWhile_append_dropWhile jsWs l
    rw [← hsplit] at hc
    rcases List.mem_append.mp hc with h1 | h1
    · exact List.mem_takeWhile_imp h1
    · exact h c (List.mem_reverse.mpr h1)
  · intro h c hc
    have : c ∈ l.dropWhile jsWs := List.mem_reverse.mp hc
    have hsub : c ∈ l := by
      have hsplit := List.takeWhile_append_dropWhile jsWs l
      rw [← hsplit]
      exact List.mem_append.mpr (Or.inr this)
    exact h c hsub

theorem cleanTextL_eq_nil_iff (l : List Char) : cleanTextL l = [] ↔ nonWsOf l = [] := by
  constructor
  · intro h
    rw [← nonWsOf_cleanTextL, h]
    rfl
  · intro h
    unfold cleanTextL
    rw [trimL_eq_nil_iff]
    intro c hc
    by_contra hw
    have hcmem : c ∈ nonWsOf (collapseNl3 (collapseRuns isCrFf '\n' (collapseRuns isSpTab ' ' (replaceNbsp l)))) := by
      unfold nonWsOf
      rw [List.mem_filter]
      exact ⟨hc, by simp [hw]⟩
    rw [nonWsOf_collapseNl3,
      nonWsOf_collapseRuns isCrFf '\n' (by intro c h; simp [isCrFf, jsWs] at *; omega) (by decide),
      nonWsOf_collapseRuns isSpTab ' ' (by intro c h; simp [isSpTab, jsWs] at *; rcases h with h | h <;> simp [h]) (by decide),
      nonWsOf_replaceNbsp, h] at hcmem
    exact List.not_mem_nil c hcmem

/-! ## Decimal rendering: correctness and injectivity -/

theorem digitsVal_append (l : List Char) (c : Char) :
    digitsVal (l ++ [c]) = digitsVal l * 10 + digitVal c := by
  simp [digitsVal, List.foldl_append]

theorem digitVal_digitChar {n : Nat} (h : n < 10) : digitVal (Nat.digitChar n) = n := by
  interval_cases n <;> decide

theorem digitChar_is_digit {n : Nat} (h : n < 10) :
    48 ≤ (Nat.digitChar n).toNat ∧ (Nat.digitChar n).toNat ≤ 57 := by
  interval_cases n <;> decide

theorem digitsVal_natReprAux :
    ∀ fuel n : Nat, n < 10 ^ fuel → digitsVal (natReprAux fuel n) = n := by
  intro fuel
  induction fuel with
  | zero =>
    intro n h
    simp only [Nat.pow_zero, Nat.lt_one_iff] at h
    subst h
    rfl
  | succ f ih =>
    intro n h
    by_cases h10 : n < 10
    · simp only [natReprAux, if_pos h10]
      show digitsVal [Nat.digitChar n] = n
      have : digitsVal [Nat.digitChar n] = digitVal (Nat.digitChar n) := by
        simp [digitsVal]
      rw [this, digitVal_digitChar h10]
    · simp only [natReprAux, if_neg h10]
      rw [digitsVal_append]
      have hdiv : n / 10 < 10 ^ f := by
        have hx : n < 10 ^ f * 10 := by
          rw [← Nat.pow_succ]
          exact h
        omega
      rw [ih (n / 10) hdiv, digitVal_digitChar (Nat.mod_lt n (by norm_num))]
      omega

theorem digitsVal_natReprL (n : Nat) : digitsVal (natReprL n) = n := by
  have h1 : n < 10 ^ n := Nat.lt_pow_self (by norm_num) n
  have h2 : (10 : Nat) ^ n ≤ 10 ^ (n + 1) := Nat.pow_le_pow_right (by norm_num) (Nat.le_succ n)
  exact digitsVal_natReprAux (n + 1) n (lt_of_lt_of_le h1 h2)

theorem natReprL_inj {m n : Nat} (h : natReprL m = natReprL n) : m = n := by
  rw [← digitsVal_natReprL m, ← digitsVal_natReprL n, h]

theorem natReprAux_digits :
    ∀ fuel n : Nat, ∀ c ∈ natReprAux fuel n, 48 ≤ c.toNat ∧ c.toNat ≤ 57 := by
  intro fuel
  induction fuel with
  | zero =>
    intro n c hc
    exact absurd hc (List.not_mem_nil c)
  | succ f ih =>
    intro n c hc
    by_cases h10 : n < 10
    · simp only [natReprAux, if_pos h10] at hc
      have : c = Nat.digitChar n := by simpa using hc
      subst this
      exact digitChar_is_digit h10
    · simp only [natReprAux, if_neg h10] at hc
      rcases List.mem_append.mp hc with h1 | h1
      · exact ih (n / 10) c h1
      · have : c = Nat.digitChar (n % 10) := by simpa using h1
        subst this
        exact digitChar_is_digit (Nat.mod_lt n (by norm_num))

theorem natReprL_no_colon (n : Nat) : ∀ c ∈ natReprL n, c ≠ ':' := by
  intro c hc
  have h := natReprAux_digits (n + 1) n c hc
  intro heq
  subst heq
  simp at h

theorem colon_split :
    ∀ u v a b : List Char, (∀ c ∈ u, c ≠ ':') → (∀ c ∈ v, c ≠ ':') →
      u ++ ':' :: a = v ++ ':' :: b → u = v ∧ a = b := by
  intro u
  induction u with
  | nil =>
    intro v a b _ hv h
    cases v with
    | nil =>
      simp only [List.nil_append, List.cons.injEq] at h
      exact ⟨rfl, h.2⟩
    | cons x xs =>
      simp only [List.nil_append, List.cons_append, List.cons.injEq] at h
      exact absurd h.1.symm (hv x (List.mem_cons_self x xs))
  | cons y ys ih =>
    intro v a b hu hv h
    cases v with
    | nil =>
      simp only [List.cons_append, List.nil_append, List.cons.injEq] at h
      exact absurd h.1 (hu y (List.mem_cons_self y ys))
    | cons x xs =>
      simp only [List.cons_append, List.cons.injEq] at h
      have hys : ∀ c ∈ ys, c ≠ ':' := fun c hc => hu c (List.mem_cons_of_mem y hc)
      have hxs : ∀ c ∈ xs, c ≠ ':' := fun c hc => hv c (List.mem_cons_of_mem x hc)
      have := ih xs a b hys hxs h.2
      exact ⟨by rw [h.1, this.1], this.2⟩

/-! ## Claims about the query path (rag.ts) and the store -/

/-- C8: for every distance d at least 0, cosineScoreFromDistance d equals
1 minus d; in particular it maps 0 to 1 and 0.2 to 0.8. -/
theorem cosineScoreFromDistance_spec (d : ℚ) (hd : 0 ≤ d) :
    cosineScoreFromDistance d = 1 - d ∧ cosineScoreFromDistance 0 = 1 ∧
      cosineScoreFromDistance (2 / 10) = 8 / 10 := by
  refine ⟨rfl, by norm_num [cosineScoreFromDistance], by norm_num [cosineScoreFromDistance]⟩

theorem cosineScoreFromDistance_spec_witness :
    cosineScoreFromDistance 3 = 1 - 3 ∧ cosineScoreFromDistance 0 = 1 ∧
      cosineScoreFromDistance (2 / 10) = 8 / 10 :=
  cosineScoreFromDistance_spec 3 (by norm_num)

/-- C9: citation tags are the pure function hash-celex-colon-index of the
document id and passage index, the function is injective, and the GDPR
example renders as in the specification. -/
theorem formatCitation_spec :
    (∀ (celex : String) (i : Nat), formatCitation celex i = "#" ++ celex ++ ":" ++ natReprS i) ∧
    (∀ (c1 : String) (i1 : Nat) (c2 : String) (i2 : Nat),
      formatCitation c1 i1 = formatCitation c2 i2 → c1 = c2 ∧ i1 = i2) ∧
    formatCitation "32016R0679" 3 = "#32016R0679:3" := by
  refine ⟨fun celex i => rfl, ?_, by decide⟩
  intro c1 i1 c2 i2 h
  have h0 := congrArg String.data h
  simp only [formatCitation, natReprS, String.data_append] at h0
  simp only [List.append_assoc, List.singleton_append, List.cons.injEq, true_and] at h0
  have hrev := congrArg List.reverse h0
  simp only [List.reverse_append, List.reverse_cons, List.append_assoc,
    List.singleton_append] at hrev
  have hnc1 : ∀ c ∈ (natReprL i1).reverse, c ≠ ':' := fun c hc =>
    natReprL_no_colon i1 c (List.mem_reverse.mp hc)
  have hnc2 : ∀ c ∈ (natReprL i2).reverse, c ≠ ':' := fun c hc =>
    natReprL_no_colon i2 c (List.mem_reverse.mp hc)
  obtain ⟨hu, ha⟩ := colon_split _ _ _ _ hnc1 hnc2 hrev
  constructor
  · have hdata : c1.data = c2.data := by
      have := congrArg List.reverse ha
      simpa using this
    exact String.ext hdata
  · apply natReprL_inj
    have := congrArg List.reverse hu
    simpa using this

theorem formatCitation_spec_witness : "GDPR" = "GDPR" ∧ (3 : Nat) = 3 :=
  formatCitation_spec.2.1 "GDPR" 3 "GDPR" 3 rfl

theorem joinSep_contains_of_mem (sep : String) :
    ∀ (l : List String) (x : String), x ∈ l → x.data <:+: (joinSep sep l).data
  | [], x, hx => absurd hx (List.not_mem_nil x)
  | [y], x, hx => by
    have hxy : x = y := by simpa using hx
    subst hxy
    exact ⟨[], [], by simp [joinSep]⟩
  | y :: z :: zs, x, hx => by
    rcases List.mem_cons.mp hx with h | h
    · subst h
      refine ⟨[], sep.data ++ (joinSep sep (z :: zs)).data, ?_⟩
      show [] ++ x.data ++ (sep.data ++ (joinSep sep (z :: zs)).data) =
        (joinSep sep (x :: z :: zs)).data
      simp [joinSep, String.data_append, List.append_assoc]
    · obtain ⟨s, t, hst⟩ := joinSep_contains_of_mem sep (z :: zs) x h
      refine ⟨y.data ++ sep.data ++ s, t, ?_⟩
      show y.data ++ sep.data ++ s ++ x.data ++ t = (joinSep sep (y :: z :: zs)).data
      have : (joinSep sep (y :: z :: zs)).data =
          y.data ++ sep.data ++ (joinSep sep (z :: zs)).data := by
        simp [joinSep, String.data_append, List.append_assoc]
      rw [this, ← hst]
      simp [List.append_assoc]

/-- C10: the built context is the retrieved chunks mapped to a bracketed
citation tag, a newline and the passage text, joined in retrieval order;
hence for every retrieved chunk the bracketed tag immediately followed by
its text occurs inside the context, and the two-passage example of the
specification renders exactly as stated. -/
theorem buildContext_spec (chunks : List RetrievedChunk) :
    buildContext chunks = joinSep "\n\n" (chunks.map contextEntry) ∧
    (∀ c ∈ chunks,
      ("[" ++ formatCitation c.celex c.chunk_id ++ "]\n" ++ c.content).data <:+:
        (buildContext chunks).data) ∧
    buildContext
        [⟨"32016R0679", "32016R0679", 1, "Lorem ipsum", 1 / 2⟩,
         ⟨"32016R0679", "32016R0679", 2, "Dolor sit amet", 1 / 2⟩] =
      "[#32016R0679:1]\nLorem ipsum\n\n[#32016R0679:2]\nDolor sit amet" := by
  refine ⟨rfl, ?_, by decide⟩
  intro c hc
  have hmem : contextEntry c ∈ chunks.map contextEntry := List.mem_map_of_mem contextEntry hc
  exact joinSep_contains_of_mem "\n\n" (chunks.map contextEntry) (contextEntry c) hmem

theorem buildContext_spec_witness :
    ("[" ++ formatCitation "32016R0679" 1 ++ "]\n" ++ "Lorem ipsum").data <:+:
      (buildContext [⟨"32016R0679", "32016R0679", 1, "Lorem ipsum", 1 / 2⟩]).data :=
  (buildContext_spec [⟨"32016R0679", "32016R0679", 1, "Lorem ipsum", 1 / 2⟩]).2.1
    ⟨"32016R0679", "32016R0679", 1, "Lorem ipsum", 1 / 2⟩ (by simp)

/-- C4: the Answerer abstains exactly when the retrieved list is empty or
the top score is below 0.25, returning the fixed insufficient-information
text with empty citation lists; otherwise it returns the generated text
with one citation entry per retrieved chunk. -/
theorem answer_abstention_gate (chunks : List RetrievedChunk) (genText : String) :
    (answerResult chunks genText = ⟨ABSTAIN_TEXT, [], []⟩ ↔
      chunks = [] ∨ topScore chunks < 1 / 4) ∧
    (chunks ≠ [] → 1 / 4 ≤ topScore chunks →
      answerResult chunks genText =
        ⟨genText, chunks.map (fun c => formatCitation c.celex c.chunk_id),
          chunks.map (fun c => (formatCitation c.celex c.chunk_id, c.score))⟩) := by
  by_cases h : chunks.isEmpty = true ∨ topScore chunks < 1 / 4
  · constructor
    · rw [answerResult, if_pos h]
      apply iff_of_true rfl
      rcases h with h | h
      · exact Or.inl (List.isEmpty_iff.mp h)
      · exact Or.inr h
    · intro hne hge
      exfalso
      rcases h with h | h
      · exact hne (List.isEmpty_iff.mp h)
      · exact absurd hge (not_le.mpr h)
  · constructor
    · rw [answerResult, if_neg h]
      apply iff_of_false
      · intro heq
        have hs := congrArg AnswerResult.sources heq
        simp only [AnswerResult.mk.injEq] at heq
        have hmap : chunks.map (fun c => formatCitation c.celex c.chunk_id) = [] := heq.2.1
        have hnil : chunks = [] := List.map_eq_nil_iff.mp hmap
        exact h (Or.inl (by simp [hnil]))
      · intro hor
        apply h
        rcases hor with h1 | h1
        · exact Or.inl (by simp [h1])
        · exact Or.inr h1
    · intro _ _
      rw [answerResult, if_neg h]

theorem answer_abstention_gate_witness :
    answerResult [⟨"32016R0679", "32016R0679", 1, "Lorem ipsum", 1 / 4⟩] "răspuns" =
      ⟨"răspuns", [formatCitation "32016R0679" 1], [(formatCitation "32016R0679" 1, 1 / 4)]⟩ :=
  (answer_abstention_gate [⟨"32016R0679", "32016R0679", 1, "Lorem ipsum", 1 / 4⟩]
      "răspuns").2 (by simp) (by norm_num [topScore])

/-- C5 (code bug): after re-ingesting document X with three passages over
a previous ingestion with five, the store still holds rows with chunk
indices 3 and 4 — upsertDocument issues no DELETE, contradicting its own
"Replace strategy: delete existing rows" comment, so the stored indices
for X are 0 to 4 rather than exactly 0 to 2. -/
theorem upsertDocument_stale_rows :
    (upsertDocument "X" ["a", "b", "c"]
        (upsertDocument "X" ["a", "b", "c", "d", "e"] [])).map Row.chunk_id =
      [0, 1, 2, 3, 4] := by
  decide

/-- C6: answer (the Answerer of the specification, returning text plus
tag-and-score citation entries) always asks the retriever for exactly five
passages: its result is determined by the retriever's answer at k equal to
five, and any two retrievers agreeing at five yield the same result. -/
theorem answer_requests_k_five (retrieveFn retrieveFn2 : Nat → List RetrievedChunk)
    (genText : String) (h : retrieveFn2 5 = retrieveFn 5) :
    answer retrieveFn genText = answerResult (retrieveFn 5) genText ∧
    answer retrieveFn2 genText = answer retrieveFn genText := by
  constructor
  · rfl
  · unfold answer
    rw [h]

theorem answer_requests_k_five_witness :
    answer (fun _ => []) "t" = answerResult ((fun _ => ([] : List RetrievedChunk)) 5) "t" ∧
    answer (fun _ => []) "t" = answer (fun _ => ([] : List RetrievedChunk)) "t" :=
  answer_requests_k_five (fun _ => []) (fun _ => []) "t" rfl

/-- C7: when the fetched markup matches a no-longer-valid status marker,
processItem returns normally with a chunk count of zero and leaves the
store untouched, for every extractor, document id, dry-run flag and
store. -/
theorem processItem_skips_no_longer_valid (extract : String → List Token)
    (celex html : String) (noEmbed : Bool) (store : List Row)
    (h : isNoLongerInForce html = true) :
    processItem extract celex html noEmbed store = (⟨celex, 0⟩, store) := by
  unfold processItem
  rw [if_pos h]

theorem processItem_skips_no_longer_valid_witness :
    processItem (fun _ => []) "32005L0029" "<p>Status: No  longer\nin force</p>" false
        [⟨"32005L0029", "32005L0029", 0, "old"⟩] =
      (⟨"32005L0029", 0⟩, [⟨"32005L0029", "32005L0029", 0, "old"⟩]) :=
  processItem_skips_no_longer_valid (fun _ => []) "32005L0029"
    "<p>Status: No  longer\nin force</p>" false [⟨"32005L0029", "32005L0029", 0, "old"⟩]
    (by decide)

/-! ## Sentence splitting: non-whitespace coverage and non-degeneracy -/

theorem jsWs_space : jsWs ' ' = true := by decide

theorem nonWsOf_nil : nonWsOf [] = [] := rfl

theorem jsWs_nl : jsWs '\n' = true := by decide

theorem nonWsOf_cons (c : Char) (l : List Char) :
    nonWsOf (c :: l) = (if jsWs c then [] else [c]) ++ nonWsOf l := by
  cases h : jsWs c with
  | true => simp [nonWsOf_cons_ws h, h]
  | false => simp [nonWsOf_cons_not_ws h, h]

theorem sentPunct_not_ws {c : Char} (h : sentPunct c = true) : jsWs c = false := by
  simp only [sentPunct, Bool.or_eq_true, beq_iff_eq] at h
  rcases h with (h | h) | h <;> subst h <;> decide

theorem sentUpper_not_ws {c : Char} (h : sentUpper c = true) : jsWs c = false := by
  have hn : (65 ≤ c.toNat ∧ c.toNat ≤ 90) ∨ c.toNat = 206 ∨ c.toNat = 194 ∨
      c.toNat = 258 ∨ c.toNat = 536 ∨ c.toNat = 538 := by
    simp only [sentUpper, Bool.or_eq_true, Bool.and_eq_true, beq_iff_eq,
      decide_eq_true_eq] at h
    rcases h with ((((⟨h1, h2⟩ | h) | h) | h) | h) | h
    · exact Or.inl ⟨h1, h2⟩
    · subst h; exact Or.inr (Or.inl rfl)
    · subst h; exact Or.inr (Or.inr (Or.inl rfl))
    · subst h; exact Or.inr (Or.inr (Or.inr (Or.inl rfl)))
    · subst h; exact Or.inr (Or.inr (Or.inr (Or.inr (Or.inl rfl))))
    · subst h; exact Or.inr (Or.inr (Or.inr (Or.inr (Or.inr rfl))))
  simp only [jsWs, Bool.or_eq_false_iff, Bool.and_eq_false_iff, beq_eq_false_iff_ne, ne_eq,
    decide_eq_false_iff_not, not_le]
  omega

theorem splitSentencesAux_flatten_nonWs (acc rest : List Char) :
    nonWsOf (splitSentencesAux acc rest).flatten = nonWsOf (acc.reverse ++ rest) := by
  induction acc, rest using splitSentencesAux.induct with
  | case1 acc =>
    simp [splitSentencesAux.eq_1, nonWsOf_append]
  | case2 acc c d rest hcond ih =>
    rw [splitSentencesAux.eq_2, if_pos hcond, List.flatten_cons, nonWsOf_append, ih]
    simp only [List.reverse_nil, List.nil_append, nonWsOf_append, nonWsOf_cons, nonWsOf_nil,
      jsWs_space, if_true, List.append_assoc]
  | case3 acc c d rest hcond ih =>
    rw [splitSentencesAux.eq_2, if_neg hcond, ih]
    simp only [List.reverse_cons, nonWsOf_append, nonWsOf_cons, nonWsOf_nil,
      List.append_assoc, List.nil_append]
  | case4 acc c cs hne ih =>
    rw [splitSentencesAux.eq_3 acc c cs hne, ih]
    simp only [List.reverse_cons, nonWsOf_append, nonWsOf_cons, nonWsOf_nil,
      List.append_assoc, List.nil_append]

theorem splitSentencesAux_nonWs (acc rest : List Char) :
    (nonWsOf acc ≠ [] ∨ nonWsOf rest ≠ []) →
      ∀ s ∈ splitSentencesAux acc rest, nonWsOf s ≠ [] := by
  induction acc, rest using splitSentencesAux.induct with
  | case1 acc =>
    intro hinv s hs
    rw [splitSentencesAux.eq_1] at hs
    have hs : s = acc.reverse := by simpa using hs
    subst hs
    rcases hinv with h | h
    · rw [nonWsOf_reverse]
      simpa using h
    · exact absurd rfl h
  | case2 acc c d rest hcond ih =>
    intro _ s hs
    rw [splitSentencesAux.eq_2, if_pos hcond] at hs
    have hpunct : jsWs c = false := sentPunct_not_ws (Bool.and_elim_left hcond)
    have hupper : jsWs d = false := sentUpper_not_ws (Bool.and_elim_right hcond)
    rcases List.mem_cons.mp hs with h | h
    · subst h
      rw [nonWsOf_append, nonWsOf_cons_not_ws hpunct]
      simp
    · refine ih (Or.inr ?_) s h
      rw [nonWsOf_cons_not_ws hupper]
      simp
  | case3 acc c d rest hcond ih =>
    intro hinv s hs
    rw [splitSentencesAux.eq_2, if_neg hcond] at hs
    refine ih ?_ s hs
    rcases hinv with h | h
    · left
      rw [nonWsOf_cons]
      intro hx
      rcases List.append_eq_nil.mp hx with ⟨_, h2⟩
      exact h h2
    · cases hw : jsWs c with
      | false =>
        left
        rw [nonWsOf_cons_not_ws hw]
        simp
      | true =>
        right
        rw [nonWsOf_cons_ws hw] at h
        exact h
  | case4 acc c cs hne ih =>
    intro hinv s hs
    rw [splitSentencesAux.eq_3 acc c cs hne] at hs
    refine ih ?_ s hs
    rcases hinv with h | h
    · left
      rw [nonWsOf_cons]
      intro hx
      rcases List.append_eq_nil.mp hx with ⟨_, h2⟩
      exact h h2
    · cases hw : jsWs c with
      | false =>
        left
        rw [nonWsOf_cons_not_ws hw]
        simp
      | true =>
        right
        rw [nonWsOf_cons_ws hw] at h
        exact h

theorem nonWsOf_sentenceSplitL_flatten (l : List Char) :
    nonWsOf (sentenceSplitL l).flatten = nonWsOf l := by
  have hbase : nonWsOf (trimL (collapseRuns jsWs ' ' l)) = nonWsOf l := by
    rw [nonWsOf_trimL, nonWsOf_collapseRuns jsWs ' ' (fun c h => h) (by decide)]
  simp only [sentenceSplitL]
  cases he : (trimL (collapseRuns jsWs ' ' l)).isEmpty with
  | true =>
    have ht : trimL (collapseRuns jsWs ' ' l) = [] := List.isEmpty_iff.mp he
    rw [ht] at hbase
    rw [ht]
    simpa [nonWsOf] using hbase
  | false =>
    simp only [Bool.false_eq_true, if_false]
    rw [splitSentencesAux_flatten_nonWs, List.reverse_nil, List.nil_append, hbase]

theorem sentenceSplitL_nonWs (l : List Char) :
    ∀ s ∈ sentenceSplitL l, nonWsOf s ≠ [] := by
  intro s hs
  simp only [sentenceSplitL] at hs
  cases he : (trimL (collapseRuns jsWs ' ' l)).isEmpty with
  | true =>
    rw [List.isEmpty_iff.mp he] at hs
    simp at hs
  | false =>
    rw [he] at hs
    simp only [Bool.false_eq_true, if_false] at hs
    refine splitSentencesAux_nonWs [] _ (Or.inr ?_) s hs
    intro hnil
    have hall : ∀ c ∈ collapseRuns jsWs ' ' l, jsWs c = true := by
      intro c hc
      have h1 : nonWsOf (collapseRuns jsWs ' ' l) = [] := by
        rw [← nonWsOf_trimL, hnil]
      exact (nonWsOf_eq_nil_iff _).mp h1 c hc
    have ht : trimL (collapseRuns jsWs ' ' l) = [] := (trimL_eq_nil_iff _).mpr hall
    rw [ht] at he
    simp at he

/-! ## The chunker preserves non-whitespace content and never emits an
empty chunk -/

theorem flushChunk_fst_flatten_nonWs (st : ChunkState) :
    nonWsOf (flushChunk st).1.flatten = nonWsOf (stContent st) := by
  simp only [flushChunk, stContent]
  cases he : (cleanTextL st.2).isEmpty with
  | true =>
    have h3 : nonWsOf st.2 = [] := (cleanTextL_eq_nil_iff _).mp (List.isEmpty_iff.mp he)
    simp [nonWsOf_append, h3]
  | false =>
    simp [nonWsOf_append, nonWsOf_cleanTextL]

theorem stContent_eq (st : ChunkState) : stContent st = st.1.flatten ++ st.2 := rfl

theorem flushChunk_ne_nil (st : ChunkState) (h : ∀ c ∈ st.1, c ≠ []) :
    ∀ c ∈ (flushChunk st).1, c ≠ [] := by
  simp only [flushChunk]
  cases he : (cleanTextL st.2).isEmpty with
  | true => simpa using h
  | false =>
    intro c hc
    have hc2 : c ∈ st.1 ++ [cleanTextL st.2] := by simpa using hc
    rcases List.mem_append.mp hc2 with h1 | h1
    · exact h c h1
    · have hce : c = cleanTextL st.2 := by simpa using h1
      subst hce
      intro hemp
      rw [hemp] at he
      simp at he

theorem hardSplitStep_content (minSize maxSize : Nat) (slice : List Char) (st : ChunkState) :
    nonWsOf (stContent (hardSplitStep minSize maxSize slice st)) =
      nonWsOf (stContent st) ++ nonWsOf slice := by
  simp only [hardSplitStep]
  cases hcond : (decide (maxSize < st.2.length + slice.length + 1) &&
      decide (minSize ≤ st.2.length)) with
  | true =>
    have h2 : (flushChunk st).2 = [] := rfl
    simp only [if_true, stContent_eq, h2, List.isEmpty_nil, nonWsOf_append]
    have hf := flushChunk_fst_flatten_nonWs st
    rw [stContent_eq, nonWsOf_append] at hf
    rw [hf, List.append_assoc]
  | false =>
    cases hemp : st.2.isEmpty with
    | true =>
      have hnil : st.2 = [] := List.isEmpty_iff.mp hemp
      simp [stContent_eq, hnil, nonWsOf_append]
    | false =>
      have hne : ¬st.2 = [] := by
        intro hx
        rw [hx] at hemp
        simp at hemp
      simp only [Bool.false_eq_true, if_false, stContent_eq, hemp]
      simp [nonWsOf_append, nonWsOf_cons, jsWs_space, List.append_assoc]

theorem hardSplitStep_ne_nil (minSize maxSize : Nat) (slice : List Char) (st : ChunkState)
    (h : ∀ c ∈ st.1, c ≠ []) :
    ∀ c ∈ (hardSplitStep minSize maxSize slice st).1, c ≠ [] := by
  simp only [hardSplitStep]
  cases hcond : (decide (maxSize < st.2.length + slice.length + 1) &&
      decide (minSize ≤ st.2.length)) with
  | true =>
    simpa using flushChunk_ne_nil st h
  | false =>
    simpa using h

theorem hardSplitAux_content (minSize maxSize : Nat) (hmax : 1 ≤ maxSize) :
    ∀ (fuel : Nat) (s : List Char) (st : ChunkState), s.length ≤ fuel →
      nonWsOf (stContent (hardSplitAux minSize maxSize fuel s st)) =
        nonWsOf (stContent st) ++ nonWsOf s := by
  intro fuel
  induction fuel with
  | zero =>
    intro s st hlen
    have hs : s = [] := List.eq_nil_of_length_eq_zero (Nat.le_zero.mp hlen)
    subst hs
    simp [hardSplitAux, nonWsOf_nil]
  | succ f ih =>
    intro s st hlen
    cases s with
    | nil =>
      have he : hardSplitAux minSize maxSize (f + 1) [] st = st := rfl
      rw [he]
      simp [nonWsOf_nil]
    | cons a as =>
      have he : hardSplitAux minSize maxSize (f + 1) (a :: as) st =
          hardSplitAux minSize maxSize f ((a :: as).drop maxSize)
            (hardSplitStep minSize maxSize ((a :: as).take maxSize) st) := rfl
      rw [he]
      have hdroplen : ((a :: as).drop maxSize).length ≤ f := by
        rw [List.length_drop]
        simp only [List.length_cons] at hlen ⊢
        omega
      rw [ih _ _ hdroplen, hardSplitStep_content, List.append_assoc, ← nonWsOf_append,
        List.take_append_drop]

theorem hardSplitAux_ne_nil (minSize maxSize : Nat) :
    ∀ (fuel : Nat) (s : List Char) (st : ChunkState), (∀ c ∈ st.1, c ≠ []) →
      ∀ c ∈ (hardSplitAux minSize maxSize fuel s st).1, c ≠ [] := by
  intro fuel
  induction fuel with
  | zero =>
    intro s st h
    simpa [hardSplitAux] using h
  | succ f ih =>
    intro s st h
    cases s with
    | nil =>
      simpa [hardSplitAux] using h
    | cons a as =>
      have he : hardSplitAux minSize maxSize (f + 1) (a :: as) st =
          hardSplitAux minSize maxSize f ((a :: as).drop maxSize)
            (hardSplitStep minSize maxSize ((a :: as).take maxSize) st) := rfl
      rw [he]
      exact ih _ _ (hardSplitStep_ne_nil _ _ _ _ h)

theorem addSentence_content (minSize maxSize : Nat) (hmax : 1 ≤ maxSize)
    (st : ChunkState) (s : List Char) :
    nonWsOf (stContent (addSentence minSize maxSize st s)) =
      nonWsOf (stContent st) ++ nonWsOf s := by
  simp only [addSentence]
  by_cases h1 : (if 0 < st.2.length then st.2 ++ ' ' :: s else s).length ≤ maxSize
  · rw [if_pos h1]
    by_cases h2 : 0 < st.2.length
    · rw [if_pos h2]
      simp [stContent_eq, nonWsOf_append, nonWsOf_cons, jsWs_space, List.append_assoc]
    · have hnil : st.2 = [] := List.eq_nil_of_length_eq_zero (by omega)
      rw [if_neg h2]
      simp [stContent_eq, hnil, nonWsOf_append]
  · rw [if_neg h1]
    by_cases h2 : minSize ≤ st.2.length
    · rw [if_pos h2]
      have hf := flushChunk_fst_flatten_nonWs st
      simp only [stContent_eq, nonWsOf_append] at hf ⊢
      simp [hf, List.append_assoc]
    · rw [if_neg h2]
      by_cases h3 : maxSize ≤ s.length
      · rw [if_pos h3]
        exact hardSplitAux_content minSize maxSize hmax s.length s st (Nat.le_refl _)
      · rw [if_neg h3]
        cases hemp : st.2.isEmpty with
        | true =>
          have hnil : st.2 = [] := List.isEmpty_iff.mp hemp
          simp [stContent_eq, hnil, nonWsOf_append]
        | false =>
          have hf := flushChunk_fst_flatten_nonWs st
          simp only [stContent_eq, nonWsOf_append] at hf ⊢
          simp [hf, List.append_assoc]

theorem addSentence_ne_nil (minSize maxSize : Nat) (st : ChunkState) (s : List Char)
    (h : ∀ c ∈ st.1, c ≠ []) :
    ∀ c ∈ (addSentence minSize maxSize st s).1, c ≠ [] := by
  simp only [addSentence]
  by_cases h1 : (if 0 < st.2.length then st.2 ++ ' ' :: s else s).length ≤ maxSize
  · rw [if_pos h1]
    exact h
  · rw [if_neg h1]
    by_cases h2 : minSize ≤ st.2.length
    · rw [if_pos h2]
      exact flushChunk_ne_nil st h
    · rw [if_neg h2]
      by_cases h3 : maxSize ≤ s.length
      · rw [if_pos h3]
        exact hardSplitAux_ne_nil minSize maxSize s.length s st h
      · rw [if_neg h3]
        cases hemp : st.2.isEmpty with
        | true =>
          simpa using h
        | false =>
          simpa using flushChunk_ne_nil st h

theorem foldl_addSentence_content (minSize maxSize : Nat) (hmax : 1 ≤ maxSize) :
    ∀ (l : List (List Char)) (st : ChunkState),
      nonWsOf (stContent (l.foldl (addSentence minSize maxSize) st)) =
        nonWsOf (stContent st) ++ nonWsOf l.flatten := by
  intro l
  induction l with
  | nil =>
    intro st
    simp [nonWsOf_nil]
  | cons s rest ih =>
    intro st
    rw [List.foldl_cons, ih, addSentence_content minSize maxSize hmax, List.flatten_cons,
      nonWsOf_append, List.append_assoc]

theorem foldl_addSentence_ne_nil (minSize maxSize : Nat) :
    ∀ (l : List (List Char)) (st : ChunkState), (∀ c ∈ st.1, c ≠ []) →
      ∀ c ∈ (l.foldl (addSentence minSize maxSize) st).1, c ≠ [] := by
  intro l
  induction l with
  | nil =>
    intro st h
    simpa using h
  | cons s rest ih =>
    intro st h
    rw [List.foldl_cons]
    exact ih _ (addSentence_ne_nil minSize maxSize st s h)

theorem chunkStep_content (minSize maxSize : Nat) (hmax : 1 ≤ maxSize)
    (st : ChunkState) (t : Token) :
    nonWsOf (stContent (chunkStep minSize maxSize st t)) =
      nonWsOf (stContent st) ++ nonWsOf t.text.data := by
  cases t with
  | mk ty tx =>
    cases ty with
    | heading =>
      simp only [chunkStep]
      by_cases h : 0 < (trimL st.2).length
      · rw [if_pos h]
        have h2 : (flushChunk st).2 = [] := rfl
        have hf := flushChunk_fst_flatten_nonWs st
        rw [stContent_eq, nonWsOf_append] at hf
        simp [stContent_eq, h2, nonWsOf_append, nonWsOf_cons, hf, List.append_assoc,
          nonWsOf_nil, jsWs_nl]
      · rw [if_neg h]
        cases hemp : st.2.isEmpty with
        | true =>
          have hnil : st.2 = [] := List.isEmpty_iff.mp hemp
          simp [stContent_eq, hnil, nonWsOf_append, nonWsOf_cons, List.append_assoc,
            nonWsOf_nil, jsWs_nl]
        | false =>
          simp [stContent_eq, nonWsOf_append, nonWsOf_cons, List.append_assoc, nonWsOf_nil,
            jsWs_nl]
    | text =>
      simp only [chunkStep]
      rw [foldl_addSentence_content minSize maxSize hmax, nonWsOf_sentenceSplitL_flatten]

theorem chunkStep_ne_nil (minSize maxSize : Nat) (st : ChunkState) (t : Token)
    (h : ∀ c ∈ st.1, c ≠ []) :
    ∀ c ∈ (chunkStep minSize maxSize st t).1, c ≠ [] := by
  cases t with
  | mk ty tx =>
    cases ty with
    | heading =>
      simp only [chunkStep]
      by_cases hcond : 0 < (trimL st.2).length
      · rw [if_pos hcond]
        simpa using flushChunk_ne_nil st h
      · rw [if_neg hcond]
        simpa using h
    | text =>
      simp only [chunkStep]
      exact foldl_addSentence_ne_nil minSize maxSize _ st h

theorem foldl_chunkStep_content (minSize maxSize : Nat) (hmax : 1 ≤ maxSize) :
    ∀ (ts : List Token) (st : ChunkState),
      nonWsOf (stContent (ts.foldl (chunkStep minSize maxSize) st)) =
        nonWsOf (stContent st) ++ nonWsOf (ts.map (fun t => t.text.data)).flatten := by
  intro ts
  induction ts with
  | nil =>
    intro st
    simp [nonWsOf_nil]
  | cons t rest ih =>
    intro st
    rw [List.foldl_cons, ih, chunkStep_content minSize maxSize hmax, List.map_cons,
      List.flatten_cons, nonWsOf_append, List.append_assoc]

theorem foldl_chunkStep_ne_nil (minSize maxSize : Nat) :
    ∀ (ts : List Token) (st : ChunkState), (∀ c ∈ st.1, c ≠ []) →
      ∀ c ∈ (ts.foldl (chunkStep minSize maxSize) st).1, c ≠ [] := by
  intro ts
  induction ts with
  | nil =>
    intro st h
    simpa using h
  | cons t rest ih =>
    intro st h
    rw [List.foldl_cons]
    exact ih _ (chunkStep_ne_nil minSize maxSize st t h)

theorem nonWsOf_buildChunksL (tokens : List Token) (minSize maxSize : Nat)
    (hmax : 1 ≤ maxSize) :
    nonWsOf (buildChunksL tokens minSize maxSize).flatten =
      nonWsOf (tokens.map (fun t => t.text.data)).flatten := by
  simp only [buildChunksL]
  have hfold := foldl_chunkStep_content minSize maxSize hmax tokens ([], [])
  simp only [stContent_eq, List.flatten_nil, List.nil_append, List.append_nil,
    nonWsOf_append, nonWsOf_nil] at hfold
  cases he : (trimL (tokens.foldl (chunkStep minSize maxSize) ([], [])).2).isEmpty with
  | true =>
    have h2 : nonWsOf (tokens.foldl (chunkStep minSize maxSize) ([], [])).2 = [] :=
      (nonWsOf_eq_nil_iff _).mpr ((trimL_eq_nil_iff _).mp (List.isEmpty_iff.mp he))
    rw [h2, List.append_nil] at hfold
    simpa [nonWsOf_nil] using hfold
  | false =>
    have hf := flushChunk_fst_flatten_nonWs (tokens.foldl (chunkStep minSize maxSize) ([], []))
    rw [stContent_eq, nonWsOf_append] at hf
    simp only [Bool.false_eq_true, if_false]
    rw [hf, hfold]

theorem buildChunksL_ne_nil (tokens : List Token) (minSize maxSize : Nat) :
    ∀ c ∈ buildChunksL tokens minSize maxSize, c ≠ [] := by
  intro c hc
  simp only [buildChunksL] at hc
  have hfold := foldl_chunkStep_ne_nil minSize maxSize tokens ([], []) (by simp)
  cases he : (trimL (tokens.foldl (chunkStep minSize maxSize) ([], [])).2).isEmpty with
  | true =>
    rw [he] at hc
    simp at hc
    exact hfold c hc
  | false =>
    rw [he] at hc
    simp only [Bool.false_eq_true, if_false] at hc
    exact flushChunk_ne_nil _ hfold c hc

/-! ## Claims about the chunker -/

theorem buildChunks_data (tokens : List Token) (minSize maxSize : Nat) :
    (buildChunks tokens minSize maxSize).map String.data = buildChunksL tokens minSize maxSize := by
  simp only [buildChunks, List.map_map]
  have : (String.data ∘ fun l : List Char => String.mk l) = id := rfl
  rw [this, List.map_id]

/-- C3: concatenating the passages returned by buildChunks, without added
separators, reproduces exactly the non-whitespace content of the input
tokens in order, and no returned passage is the empty string (stated for
any positive maxSize; the source loop itself does not terminate when
maxSize is zero). -/
theorem buildChunks_coverage (tokens : List Token) (minSize maxSize : Nat)
    (hmax : 1 ≤ maxSize) :
    nonWsOf ((buildChunks tokens minSize maxSize).map String.data).flatten =
      nonWsOf (tokens.map (fun t => t.text.data)).flatten ∧
    ∀ c ∈ buildChunks tokens minSize maxSize, c ≠ "" := by
  constructor
  · rw [buildChunks_data]
    exact nonWsOf_buildChunksL tokens minSize maxSize hmax
  · intro c hc
    simp only [buildChunks] at hc
    obtain ⟨l, hl, hlc⟩ := List.mem_map.mp hc
    have hne := buildChunksL_ne_nil tokens minSize maxSize l hl
    subst hlc
    intro hemp
    apply hne
    have := congrArg String.data hemp
    simpa using this

theorem buildChunks_coverage_witness :
    nonWsOf ((buildChunks [⟨TokType.heading, "Articolul 1"⟩, ⟨TokType.text, "Ana are mere."⟩]
        800 1000).map String.data).flatten =
      nonWsOf ([⟨TokType.heading, "Articolul 1"⟩,
        (⟨TokType.text, "Ana are mere."⟩ : Token)].map (fun t => t.text.data)).flatten :=
  (buildChunks_coverage [⟨TokType.heading, "Articolul 1"⟩, ⟨TokType.text, "Ana are mere."⟩]
    800 1000 (by norm_num)).1

/-- C2: a heading token always starts a new passage: whenever the buffer
has non-whitespace content, the heading step flushes it as a completed
passage and the fresh buffer is exactly the heading text plus a newline;
and on the heading-text-heading-text sequence of the specification the
chunker returns two passages, each beginning with its heading. -/
theorem heading_starts_new_passage :
    (∀ (chunks : List (List Char)) (cur : List Char) (h : String) (minSize maxSize : Nat),
      0 < (trimL cur).length →
      chunkStep minSize maxSize (chunks, cur) ⟨TokType.heading, h⟩ =
        (chunks ++ [cleanTextL cur], h.data ++ ['\n'])) ∧
    buildChunks [⟨TokType.heading, "Articolul 1"⟩, ⟨TokType.text, "Ana are mere."⟩,
        ⟨TokType.heading, "Articolul 2"⟩, ⟨TokType.text, "Barbu doarme."⟩] 800 1000 =
      ["Articolul 1\n Ana are mere.", "Articolul 2\n Barbu doarme."] ∧
    "Articolul 1".data <+: "Articolul 1\n Ana are mere.".data ∧
    "Articolul 2".data <+: "Articolul 2\n Barbu doarme.".data := by
  refine ⟨?_, by decide, by decide, by decide⟩
  intro chunks cur h minSize maxSize htrim
  simp only [chunkStep]
  rw [if_pos htrim]
  have hnws : nonWsOf cur ≠ [] := by
    intro hx
    have : trimL cur = [] := (trimL_eq_nil_iff _).mpr ((nonWsOf_eq_nil_iff _).mp hx)
    rw [this] at htrim
    simp at htrim
  have hclean : cleanTextL cur ≠ [] := by
    intro hx
    exact hnws ((cleanTextL_eq_nil_iff _).mp hx)
  have hflush : flushChunk (chunks, cur) = (chunks ++ [cleanTextL cur], []) := by
    simp only [flushChunk]
    rw [if_neg (by simpa using hclean)]
  rw [hflush]
  simp

/-- Witness for the heading-flush equation at a concrete buffer. -/
theorem heading_starts_new_passage_witness :
    chunkStep 800 1000 ([], "Ana are mere.".data) ⟨TokType.heading, "Articolul 2"⟩ =
      ([] ++ [cleanTextL "Ana are mere.".data], "Articolul 2".data ++ ['\n']) :=
  heading_starts_new_passage.1 [] "Ana are mere.".data "Articolul 2" 800 1000 (by decide)

/-- C1 refuted at a concrete input: on a token list consisting of a single
heading of length three, with minSize one and maxSize two, buildChunks
returns a passage of length three, strictly above maxSize, although the
input contains no body token at all — so no source sentence exceeded
maxSize and the stated exception does not apply (the source never splits a
heading). -/
theorem buildChunks_exceeds_maxSize :
    buildChunks [⟨TokType.heading, "abc"⟩] 1 2 = ["abc"] ∧
    ([⟨TokType.heading, "abc"⟩] : List Token).all (fun t => t.type == TokType.heading) = true ∧
    2 < ("abc" : String).length := by
  decide

/-! ## The size invariant for the amended bound claim -/

theorem sizeInv_flushChunk (maxSize : Nat) (st : ChunkState) (h : SizeInv maxSize st) :
    SizeInv maxSize (flushChunk st) := by
  obtain ⟨h1, h2, _⟩ := h
  refine ⟨?_, by simp [flushChunk], Or.inl rfl⟩
  intro c hc
  simp only [flushChunk] at hc
  cases hx : (cleanTextL st.2).isEmpty with
  | true =>
    rw [hx] at hc
    simp at hc
    exact h1 c hc
  | false =>
    rw [hx] at hc
    simp only [Bool.false_eq_true, if_false] at hc
    rcases List.mem_append.mp hc with hm | hm
    · exact h1 c hm
    · have hce : c = cleanTextL st.2 := by simpa using hm
      subst hce
      exact le_trans (length_cleanTextL_le st.2) h2

theorem sizeInv_addSentence (minSize maxSize : Nat) (st : ChunkState) (s : List Char)
    (h : SizeInv maxSize st) (hs1 : s.length < maxSize) (hs2 : nonWsOf s ≠ []) :
    SizeInv maxSize (addSentence minSize maxSize st s) := by
  obtain ⟨h1, h2, h3⟩ := h
  simp only [addSentence]
  by_cases c1 : (if 0 < st.2.length then st.2 ++ ' ' :: s else s).length ≤ maxSize
  · rw [if_pos c1]
    refine ⟨h1, c1, Or.inr ?_⟩
    by_cases c2 : 0 < st.2.length
    · rw [if_pos c2] at c1 ⊢
      rw [nonWsOf_append, nonWsOf_cons_ws jsWs_space]
      intro hx
      exact hs2 (List.append_eq_nil.mp hx).2
    · rw [if_neg c2]
      exact hs2
  · rw [if_neg c1]
    by_cases c2 : minSize ≤ st.2.length
    · rw [if_pos c2]
      have hf := sizeInv_flushChunk maxSize st ⟨h1, h2, h3⟩
      exact ⟨hf.1, le_of_lt hs1, Or.inr hs2⟩
    · rw [if_neg c2]
      rw [if_neg (by omega : ¬maxSize ≤ s.length)]
      by_cases c4 : st.2.isEmpty = true
      · rw [if_pos c4]
        exact ⟨h1, le_of_lt hs1, Or.inr hs2⟩
      · rw [if_neg c4]
        have hf := sizeInv_flushChunk maxSize st ⟨h1, h2, h3⟩
        exact ⟨hf.1, le_of_lt hs1, Or.inr hs2⟩

theorem sizeInv_foldl_addSentence (minSize maxSize : Nat) :
    ∀ (l : List (List Char)) (st : ChunkState), SizeInv maxSize st →
      (∀ s ∈ l, s.length < maxSize ∧ nonWsOf s ≠ []) →
      SizeInv maxSize (l.foldl (addSentence minSize maxSize) st) := by
  intro l
  induction l with
  | nil =>
    intro st h _
    simpa using h
  | cons s rest ih =>
    intro st h hl
    rw [List.foldl_cons]
    have hs := hl s (List.mem_cons_self s rest)
    exact ih _ (sizeInv_addSentence minSize maxSize st s h hs.1 hs.2)
      (fun x hx => hl x (List.mem_cons_of_mem s hx))

theorem sizeInv_chunkStep (minSize maxSize : Nat) (st : ChunkState) (t : Token)
    (h : SizeInv maxSize st)
    (hHead : t.type = TokType.heading →
      nonWsOf t.text.data ≠ [] ∧ t.text.data.length + 1 ≤ maxSize)
    (hSent : t.type = TokType.text →
      ∀ s ∈ sentenceSplitL t.text.data, s.length < maxSize) :
    SizeInv maxSize (chunkStep minSize maxSize st t) := by
  obtain ⟨h1, h2, h3⟩ := h
  cases t with
  | mk ty tx =>
    cases ty with
    | heading =>
      obtain ⟨hw, hlen⟩ := hHead rfl
      dsimp only at hw hlen
      simp only [chunkStep]
      by_cases hc : 0 < (trimL st.2).length
      · rw [if_pos hc]
        have hf := sizeInv_flushChunk maxSize st ⟨h1, h2, h3⟩
        have h2e : (flushChunk st).2 = [] := rfl
        rw [h2e]
        refine ⟨hf.1, ?_, Or.inr ?_⟩
        · simp only [List.isEmpty_nil, if_true, List.nil_append, List.length_append,
            List.length_cons, List.length_nil]
          omega
        · simp only [List.isEmpty_nil, if_true, List.nil_append, nonWsOf_append]
          intro hx
          exact hw (List.append_eq_nil.mp hx).1
      · rw [if_neg hc]
        have hnil : st.2 = [] := by
          rcases h3 with h3 | h3
          · exact h3
          · exfalso
            apply h3
            have htr : trimL st.2 = [] := by
              cases hx : trimL st.2 with
              | nil => rfl
              | cons a as =>
                exfalso
                apply hc
                simp [hx]
            exact (nonWsOf_eq_nil_iff _).mpr ((trimL_eq_nil_iff _).mp htr)
        rw [hnil]
        refine ⟨h1, ?_, Or.inr ?_⟩
        · simp only [List.isEmpty_nil, if_true, List.nil_append, List.length_append,
            List.length_cons, List.length_nil]
          omega
        · simp only [List.isEmpty_nil, if_true, List.nil_append, nonWsOf_append]
          intro hx
          exact hw (List.append_eq_nil.mp hx).1
    | text =>
      simp only [chunkStep]
      refine sizeInv_foldl_addSentence minSize maxSize _ st ⟨h1, h2, h3⟩ ?_
      intro s hs
      exact ⟨hSent rfl s hs, sentenceSplitL_nonWs tx.data s hs⟩

theorem sizeInv_foldl_chunkStep (minSize maxSize : Nat) :
    ∀ (ts : List Token) (st : ChunkState), SizeInv maxSize st →
      (∀ t ∈ ts, t.type = TokType.heading →
        nonWsOf t.text.data ≠ [] ∧ t.text.data.length + 1 ≤ maxSize) →
      (∀ t ∈ ts, t.type = TokType.text →
        ∀ s ∈ sentenceSplitL t.text.data, s.length < maxSize) →
      SizeInv maxSize (ts.foldl (chunkStep minSize maxSize) st) := by
  intro ts
  induction ts with
  | nil =>
    intro st h _ _
    simpa using h
  | cons t rest ih =>
    intro st h hHead hSent
    rw [List.foldl_cons]
    refine ih _ (sizeInv_chunkStep minSize maxSize st t h
        (hHead t (List.mem_cons_self t rest)) (hSent t (List.mem_cons_self t rest)))
      (fun x hx => hHead x (List.mem_cons_of_mem t hx))
      (fun x hx => hSent x (List.mem_cons_of_mem t hx))

/-- C1 amended: every passage returned by buildChunks has length at most
maxSize provided every heading token has non-whitespace text of length at
most maxSize minus one (the chunker appends a newline to it and never
splits a heading) and every sentence split from every body token is
strictly shorter than maxSize.  Without these restrictions the bound
fails: a heading is copied into the buffer whole; a sentence of length at
least maxSize is kept whole whenever the buffer already holds at least
minSize characters; and a hard-split slice is merged into a non-empty
buffer that is below minSize, exceeding maxSize. -/
theorem buildChunks_length_le (tokens : List Token) (minSize maxSize : Nat)
    (hHead : ∀ t ∈ tokens, t.type = TokType.heading →
      nonWsOf t.text.data ≠ [] ∧ t.text.length + 1 ≤ maxSize)
    (hSent : ∀ t ∈ tokens, t.type = TokType.text →
      ∀ s ∈ sentenceSplitL t.text.data, s.length < maxSize) :
    ∀ c ∈ buildChunks tokens minSize maxSize, c.length ≤ maxSize := by
  have hHead2 : ∀ t ∈ tokens, t.type = TokType.heading →
      nonWsOf t.text.data ≠ [] ∧ t.text.data.length + 1 ≤ maxSize := by
    intro t ht hty
    obtain ⟨hw, hlen⟩ := hHead t ht hty
    refine ⟨hw, ?_⟩
    have h0 : t.text.length = t.text.data.length := rfl
    omega
  have hinv := sizeInv_foldl_chunkStep minSize maxSize tokens ([], [])
    ⟨by simp, by simp, Or.inl rfl⟩ hHead2 hSent
  intro c hc
  simp only [buildChunks] at hc
  obtain ⟨l, hl, hlc⟩ := List.mem_map.mp hc
  have hlen : l.length ≤ maxSize := by
    simp only [buildChunksL] at hl
    cases he : (trimL (tokens.foldl (chunkStep minSize maxSize) ([], [])).2).isEmpty with
    | true =>
      rw [he] at hl
      simp at hl
      exact hinv.1 l hl
    | false =>
      rw [he] at hl
      simp only [Bool.false_eq_true, if_false] at hl
      exact (sizeInv_flushChunk maxSize _ hinv).1 l hl
  subst hlc
  exact hlen

theorem buildChunks_length_le_witness :
    ("Articolul 1\n Ana are mere." : String).length ≤ 1000 :=
  buildChunks_length_le [⟨TokType.heading, "Articolul 1"⟩, ⟨TokType.text, "Ana are mere."⟩]
    800 1000 (by decide) (by decide) "Articolul 1\n Ana are mere." (by decide)
